import Mathlib

/-!
Verification development for the resume analyzer engine
(`ai_component.py`): text normalization, skill canonicalization and
extraction, experience and education scoring, the weighted fit
aggregator `compute_fit`, and the quality-feedback function
`resume_quality`.

Modelling conventions:
* Python strings are `String` / `List Char`; the character classes of the
  regexes are modelled over ASCII (`\s` as `[ \t\n\r\x0b\x0c]`, `\d` as
  `[0-9]`, `\w` as `[A-Za-z0-9_]`), which is what every input the
  analyzer handles uses.
* Python numbers are `ℚ` / `ℤ`; `round` is round-half-to-even
  (`pyRound`), `int()` truncates toward zero (`pyInt`).
* The TF-IDF cosine similarity is computed by an external library over
  floats; its value is abstracted as a parameter `sim` known to lie in
  `[0, 1]`.  What is modelled of the library is its tokenization
  (`sklearnTokens`) and the fact that fitting an empty vocabulary
  raises, which `compute_fit_checked` reflects as `Except.error`.
* The optional readability/grammar backends are parameters returning
  `Except`, mirroring that any of their calls may raise and that the
  caller catches everything.
-/

namespace AiComponent

/-! ### Character classes (ASCII model of the Python regex classes) -/

/-- Python regex whitespace: space, tab, newline, carriage return,
vertical tab, form feed. -/
def pyWs (c : Char) : Bool :=
  c.toNat = 32 || c.toNat = 9 || c.toNat = 10 || c.toNat = 13 ||
  c.toNat = 11 || c.toNat = 12

/-- The characters kept by `normalize`: the class in the substitution
regex of the source, lowercase letters, digits, and the symbols
`+ . # / -` and the space. -/
def allowedChar (c : Char) : Bool :=
  (97 ≤ c.toNat && c.toNat ≤ 122) || (48 ≤ c.toNat && c.toNat ≤ 57) ||
  c.toNat = 43 || c.toNat = 46 || c.toNat = 35 || c.toNat = 47 ||
  c.toNat = 45 || c.toNat = 32

/-- Regex digit class. -/
def digitChar (c : Char) : Bool :=
  48 ≤ c.toNat && c.toNat ≤ 57

/-- Regex word-character class, ASCII: letters, digits, underscore. -/
def wordChar (c : Char) : Bool :=
  (97 ≤ c.toNat && c.toNat ≤ 122) || (65 ≤ c.toNat && c.toNat ≤ 90) ||
  (48 ≤ c.toNat && c.toNat ≤ 57) || c.toNat = 95

/-! ### Text normalization: the function `normalize` of the source -/

/-- Replace each maximal run of characters satisfying `p` by the single
character `r`; the flag records whether the previous character was in a
run.  This is `re.sub(<class>+, r, s)` for a single replacement
character. -/
def collapseRunsGo (p : Char → Bool) (r : Char) : Bool → List Char → List Char
  | _, [] => []
  | true, c :: cs =>
    if p c then collapseRunsGo p r true cs
    else c :: collapseRunsGo p r false cs
  | false, c :: cs =>
    if p c then r :: collapseRunsGo p r true cs
    else c :: collapseRunsGo p r false cs

def collapseRuns (p : Char → Bool) (r : Char) (l : List Char) : List Char :=
  collapseRunsGo p r false l

/-- Remove a trailing run of whitespace. -/
def dropTrailWs : List Char → List Char
  | [] => []
  | c :: cs =>
    if pyWs c && (dropTrailWs cs).isEmpty then [] else c :: dropTrailWs cs

/-- Python `str.strip()`. -/
def stripChars (l : List Char) : List Char :=
  dropTrailWs (l.dropWhile pyWs)

def pyStrip (s : String) : String := String.mk (stripChars s.data)

/-- Python `str.lower()`; `Char.toLower` is the same ASCII map. -/
def pyLower (s : String) : String := String.mk (s.data.map Char.toLower)

/-- The core list-level normalization: lowercase, replace runs of
disallowed characters by a space, collapse whitespace runs to single
spaces, and strip. -/
def normalizeL (l : List Char) : List Char :=
  stripChars (collapseRuns pyWs ' '
    (collapseRuns (fun c => !allowedChar c) ' ' (l.map Char.toLower)))

/-- `normalize` of the source. -/
def normalize (s : String) : String := String.mk (normalizeL s.data)

/-- Python `str.split()` with no argument: split on whitespace runs,
dropping empty pieces.  The accumulator holds the current token
reversed. -/
def splitWsGo : List Char → List Char → List String
  | [], cur => if cur.isEmpty then [] else [String.mk cur.reverse]
  | c :: cs, cur =>
    if pyWs c then
      (if cur.isEmpty then splitWsGo cs []
       else String.mk cur.reverse :: splitWsGo cs [])
    else splitWsGo cs (c :: cur)

def pySplit (s : String) : List String := splitWsGo s.data []

/-- `tokenize` of the source: `normalize(s).split()`. -/
def tokenize (s : String) : List String := pySplit (normalize s)

/-! ### Skill lexicon and canonicalizer -/

/-- `DEFAULT_SKILLS` of the source (a Python set literal; only
membership is ever used). -/
def DEFAULT_SKILLS : List String := [
  "python", "java", "c", "c++", "c#", ".net",
  "javascript", "typescript", "node", "node.js", "go", "golang",
  "rust", "php", "ruby", "swift", "kotlin", "scala",
  "r", "matlab", "sql", "html", "css", "sass",
  "scss", "react", "angular", "vue", "svelte", "next.js",
  "nuxt.js", "gatsby", "express", "nest.js", "django", "flask",
  "fastapi", "spring", "spring boot", "laravel", "symfony", "rails",
  "asp.net", "dotnet", "react native", "flutter", "xamarin", "ionic",
  "cordova", "progressive web apps", "pwa", "postgresql", "postgres", "mysql",
  "mongodb", "redis", "elasticsearch", "cassandra", "dynamodb", "neo4j",
  "sqlite", "oracle", "sql server", "mariadb", "couchdb", "influxdb",
  "firebase", "aws", "azure", "gcp", "docker", "kubernetes",
  "k8s", "terraform", "ansible", "chef", "puppet", "jenkins",
  "gitlab ci", "github actions", "circleci", "travis ci", "bamboo", "spinnaker",
  "machine learning", "ml", "deep learning", "dl", "artificial intelligence", "ai",
  "data science", "data analysis", "pandas", "numpy", "scipy", "tensorflow",
  "tf", "pytorch", "keras", "scikit-learn", "sklearn", "opencv",
  "nlp", "natural language processing", "computer vision", "neural networks", "statistics", "analytics",
  "tableau", "power bi", "looker", "qlik", "excel", "vba",
  "spark", "hadoop", "kafka", "airflow", "dbt", "etl",
  "unit testing", "integration testing", "test automation", "selenium", "cypress", "jest",
  "mocha", "chai", "pytest", "junit", "testng", "cucumber",
  "bdd", "tdd", "code review", "static analysis", "sonarqube", "eslint",
  "prettier", "cybersecurity", "penetration testing", "vulnerability assessment", "security auditing", "owasp",
  "firewall", "ssl", "tls", "oauth", "oauth2", "jwt",
  "rbac", "encryption", "cryptography", "secure coding", "security compliance", "gdpr",
  "hipaa", "pci dss", "linux", "windows", "unix", "bash",
  "powershell", "shell scripting", "system administration", "network administration", "monitoring", "logging",
  "prometheus", "grafana", "elk stack", "splunk", "new relic", "datadog",
  "zabbix", "nagios", "microservices", "rest api", "graphql", "websocket",
  "grpc", "soap", "api design", "system design", "distributed systems", "load balancing",
  "caching", "cdn", "message queues", "event streaming", "cqrs", "event sourcing",
  "domain driven design", "clean architecture", "hexagonal architecture", "agile", "scrum", "kanban",
  "waterfall", "project management", "leadership", "mentoring", "communication", "problem solving",
  "critical thinking", "teamwork", "time management", "adaptability", "creativity", "attention to detail",
  "customer service", "stakeholder management", "risk management", "change management", "fintech", "healthcare",
  "e-commerce", "gaming", "edtech", "saas", "paas", "iaas",
  "blockchain", "cryptocurrency", "iot", "ar", "vr", "metaverse",
  "quantum computing", "edge computing", "serverless", "lambda", "api gateway", "service mesh",
  "istio", "linkerd", "git", "jira", "confluence", "slack",
  "teams", "zoom", "figma", "sketch", "adobe", "photoshop",
  "illustrator", "invision", "zeplin", "notion", "trello", "asana",
  "monday.com", "clickup"
]

/-- `SKILL_SYNONYMS` of the source, alias to canonical form. -/
def SKILL_SYNONYMS : List (String × String) := [
  ("js", "javascript"),
  ("ts", "typescript"),
  ("tf", "tensorflow"),
  ("scikit learn", "scikit-learn"),
  ("ml", "machine learning"),
  ("dl", "deep learning"),
  ("postgresql", "postgres"),
  ("go", "golang"),
  ("k8s", "kubernetes"),
  ("ai", "artificial intelligence"),
  ("data eng", "data engineering"),
  ("big data", "data science")
]

/-- `canonicalize_skill` of the source: strip, lowercase, then look the
token up in the synonym map, defaulting to the token itself. -/
def canonicalize_skill (tok : String) : String :=
  let t := pyLower (pyStrip tok)
  (SKILL_SYNONYMS.lookup t).getD t

/-! ### Skill extraction -/

/-- Keep the first occurrence of each string (Python set semantics; only
membership and cardinality of the result are ever used). -/
def dedupGo : List String → List String → List String
  | [], _ => []
  | s :: ss, seen =>
    if seen.contains s then dedupGo ss seen else s :: dedupGo ss (s :: seen)

def dedupStr (l : List String) : List String := dedupGo l []

/-- Code-point lexicographic comparison, Python string `<`. -/
def lexLt : List Char → List Char → Bool
  | [], [] => false
  | [], _ :: _ => true
  | _ :: _, [] => false
  | a :: as, b :: bs =>
    if a.toNat < b.toNat then true
    else if b.toNat < a.toNat then false
    else lexLt as bs

def strLtB (a b : String) : Bool := lexLt a.data b.data

/-- Insertion step of `sorted` (ascending, code-point order). -/
def insertStr (s : String) : List String → List String
  | [] => [s]
  | t :: ts => if strLtB t s then t :: insertStr s ts else s :: t :: ts

/-- Python `sorted` on a list of strings. -/
def sortStr : List String → List String
  | [] => []
  | s :: ss => insertStr s (sortStr ss)

/-- `extract_skills` of the source: canonicalized unigrams and adjacent
bigrams matched against the lexicon, plus the same scan against the
caller's canonicalized custom list when one is given; the unique hits,
sorted. -/
def extract_skills (text : String) (custom_list : List String) : List String :=
  let toks := tokenize text
  let unis := toks.map canonicalize_skill
  let bigs := (toks.zip toks.tail).map (fun p => canonicalize_skill (p.1 ++ " " ++ p.2))
  let hits1 := unis.filter (fun c => DEFAULT_SKILLS.contains c)
  let hits2 := bigs.filter (fun c => DEFAULT_SKILLS.contains c)
  let customHits :=
    if custom_list.isEmpty then []
    else
      let canonical_custom_skills := dedupStr (custom_list.map canonicalize_skill)
      unis.filter (fun c => canonical_custom_skills.contains c) ++
        bigs.filter (fun c => canonical_custom_skills.contains c)
  sortStr (dedupStr (hits1 ++ hits2 ++ customHits))

/-! ### Experience extraction: the regex
`(\d+(?:\.\d+)?)\s*\+?\s*(?:years?|yrs?)`, case-insensitive -/

def digitsToNat (l : List Char) : Nat :=
  l.foldl (fun n c => 10 * n + (c.toNat - 48)) 0

/-- Consume `years`, `year`, `yrs` or `yr` case-insensitively (the
alternation `years?|yrs?` with its greedy optional `s`), returning the
rest. -/
def yrSuffix : List Char → Option (List Char)
  | y :: r :: rest =>
    if y.toLower = 'y' ∧ r.toLower = 'r' then
      some (match rest with
            | s :: t => if s.toLower = 's' then t else s :: t
            | [] => [])
    else none
  | _ => none

def unitSuffix (l : List Char) : Option (List Char) :=
  match l with
  | y :: e :: a :: r :: rest =>
    if y.toLower = 'y' ∧ e.toLower = 'e' ∧ a.toLower = 'a' ∧ r.toLower = 'r' then
      some (match rest with
            | s :: t => if s.toLower = 's' then t else s :: t
            | [] => [])
    else yrSuffix l
  | _ => yrSuffix l

/-- Try to match the pattern at the head of `l`: the digits of the
matched number kept as (integer part, fractional digits, number of
fractional digits), and the remaining characters. -/
def matchYears (l : List Char) : Option ((Nat × Nat × Nat) × List Char) :=
  let ds := l.takeWhile digitChar
  if ds.isEmpty then none else
  let afterInt := l.dropWhile digitChar
  let (v, rest) :=
    match afterInt with
    | '.' :: t =>
      let fs := t.takeWhile digitChar
      if fs.isEmpty then ((digitsToNat ds, 0, 0), afterInt)
      else ((digitsToNat ds, digitsToNat fs, fs.length), t.dropWhile digitChar)
    | _ => ((digitsToNat ds, 0, 0), afterInt)
  let rest2 := rest.dropWhile pyWs
  let rest3 := match rest2 with
               | '+' :: t => t
               | _ => rest2
  let rest4 := rest3.dropWhile pyWs
  match unitSuffix rest4 with
  | some rest5 => some (v, rest5)
  | none => none

/-- `re.finditer` scan: left to right, non-overlapping.  The fuel is the
length of the scanned list; every match consumes at least one
character, so the fuel never runs out. -/
def findYearsGo : Nat → List Char → List (Nat × Nat × Nat)
  | 0, _ => []
  | _, [] => []
  | fuel + 1, c :: cs =>
    match matchYears (c :: cs) with
    | some (v, rest) => v :: findYearsGo fuel rest
    | none => findYearsGo fuel cs

/-- The value of a matched group, `float("<int>.<frac>")`. -/
def yearsVal (t : Nat × Nat × Nat) : ℚ :=
  (t.1 : ℚ) + (t.2.1 : ℚ) / (10 : ℚ) ^ t.2.2

/-- `extract_years_of_experience` of the source: the maximum matched
number, or `none`. -/
def extract_years_of_experience (text : String) : Option ℚ :=
  match (findYearsGo text.data.length text.data).map yearsVal with
  | [] => none
  | v :: vs => some (vs.foldl max v)

/-! ### Education scoring -/

/-- The requirement record: `{skills: [..], experience: number,
education: [..]}` with `experience` optional. -/
structure Requirements where
  skills : List String
  experience : Option ℚ
  education : List String

def EDU_KEYWORDS : List String := [
  "computer science", "information technology", "data science", "software engineering",
  "electronics", "electrical", "mathematics", "statistics", "ai", "artificial intelligence",
  "machine learning", "cyber security", "network engineering", "cloud computing",
  "business administration", "finance", "marketing", "design", "physics", "chemistry"
]

def DEGREE_KEYWORDS : List String := [
  "bsc", "b.tech", "btech", "be", "msc", "m.tech", "mtech", "ms", "phd",
  "bachelor", "master", "doctorate", "associate", "diploma"
]

/-- Is `n` a prefix of `h`? -/
def prefixB : List Char → List Char → Bool
  | [], _ => true
  | _ :: _, [] => false
  | a :: as, b :: bs => a == b && prefixB as bs

/-- Substring containment, Python `n in h` on strings. -/
def substrB (n : List Char) : List Char → Bool
  | [] => n.isEmpty
  | c :: t => prefixB n (c :: t) || substrB n t

def strContains (hay needle : String) : Bool := substrB needle.data hay.data

/-- The degree check of `education_match_score`: some degree keyword is
a substring of the normalized resume. -/
def has_degree (resume_text : String) : Bool :=
  DEGREE_KEYWORDS.any (fun d => strContains (normalize resume_text) d)

/-- The field-of-study check of `education_match_score`: a fixed
keyword, or one of the normalized required-education strings, occurs in
the normalized resume. -/
def edu_field_match (requirements : Requirements) (resume_text : String) : Bool :=
  EDU_KEYWORDS.any (fun e => strContains (normalize resume_text) e) ||
    (requirements.education.map normalize).any
      (fun e => strContains (normalize resume_text) e)

/-- `education_match_score` of the source: the 100/70/40 tiers. -/
def education_match_score (requirements : Requirements) (resume_text : String) : ℤ :=
  let req_edus := requirements.education.map normalize
  if !req_edus.isEmpty && edu_field_match requirements resume_text &&
      has_degree resume_text then 100
  else if edu_field_match requirements resume_text || has_degree resume_text then 70
  else 40

/-! ### Python rounding -/

/-- Python `round()` with no digits: round half to even. -/
def pyRound (q : ℚ) : ℤ :=
  let n := ⌊q⌋
  let r := q - n
  if r < 1/2 then n
  else if 1/2 < r then n + 1
  else if n % 2 = 0 then n else n + 1

/-- Python `round(x, 2)`. -/
def pyRound2 (q : ℚ) : ℚ := (pyRound (q * 100) : ℚ) / 100

/-- Python `int()` on a number: truncation toward zero. -/
def pyInt (q : ℚ) : ℤ := if q < 0 then -(⌊-q⌋) else ⌊q⌋

/-! ### The fit aggregator `compute_fit` -/

/-- `req_skills` of `compute_fit`: canonicalized required skills. -/
def req_skills (requirements : Requirements) : List String :=
  requirements.skills.map canonicalize_skill

/-- `cand_skills` of `compute_fit`: skills extracted from the resume
with the canonicalized required skills as custom terms. -/
def cand_skills (requirements : Requirements) (resume_text : String) : List String :=
  extract_skills resume_text (req_skills requirements)

/-- `set_req` of `compute_fit` (a Python set, kept as a duplicate-free
list). -/
def set_req (requirements : Requirements) : List String :=
  dedupStr (req_skills requirements)

/-- `set_cand` of `compute_fit`. -/
def set_cand (requirements : Requirements) (resume_text : String) : List String :=
  dedupStr (cand_skills requirements resume_text)

/-- `set_req & set_cand`. -/
def inter_skills (requirements : Requirements) (resume_text : String) : List String :=
  (set_req requirements).filter
    (fun s => (set_cand requirements resume_text).contains s)

/-- `set_req - set_cand`. -/
def diff_skills (requirements : Requirements) (resume_text : String) : List String :=
  (set_req requirements).filter
    (fun s => !(set_cand requirements resume_text).contains s)

/-- `jacc` of `compute_fit`: overlap over the required set, or `1.0`
when nothing is required. -/
def jacc (requirements : Requirements) (resume_text : String) : ℚ :=
  if (set_req requirements).isEmpty then 1
  else ((inter_skills requirements resume_text).length : ℚ) /
    ((set_req requirements).length : ℚ)

/-- `skills_score` of `compute_fit`. -/
def skills_score (requirements : Requirements) (resume_text : String) : ℤ :=
  pyRound (jacc requirements resume_text * 100)

/-- `cand_years` of `compute_fit`: the extracted years or `0`. -/
def cand_years (resume_text : String) : ℚ :=
  (extract_years_of_experience resume_text).getD 0

/-- `exp_score` of `compute_fit`. -/
def exp_score (requirements : Requirements) (resume_text : String) : ℤ :=
  match requirements.experience with
  | none => 100
  | some req_years =>
    if req_years = 0 then 100
    else if cand_years resume_text ≥ req_years then 100
    else pyInt (40 + 60 * max 0 (cand_years resume_text / req_years))

/-- The breakdown dict returned by `compute_fit`. -/
structure Breakdown where
  skills : ℤ
  experience : ℤ
  education : ℤ
  semantic : ℤ
  matched_skills : List String
  missing_skills : List String

/-- `compute_fit` of the source, downstream of the similarity value:
`sim` stands for the float `tfidf_cosine(req_text, resume_text)`, which
lies in `[0, 1]` whenever the library call returns. -/
def compute_fit (sim : ℚ) (requirements : Requirements) (resume_text : String) :
    ℚ × Breakdown :=
  let skills := skills_score requirements resume_text
  let exp := exp_score requirements resume_text
  let edu := education_match_score requirements resume_text
  let overall := (skills : ℚ) * 0.6 + (exp : ℚ) * 0.25 + (edu : ℚ) * 0.15
  let blended := 0.9 * overall + 0.1 * (sim * 100)
  (pyRound2 blended,
   { skills := skills
     experience := exp
     education := edu
     semantic := pyRound (sim * 100)
     matched_skills := sortStr (inter_skills requirements resume_text)
     missing_skills := sortStr (diff_skills requirements resume_text) })

/-! ### The TF-IDF vocabulary check -/

/-- Collect maximal runs of word characters (the accumulator holds the
current run reversed). -/
def wordRunsGo : List Char → List Char → List (List Char)
  | [], cur => if cur.isEmpty then [] else [cur.reverse]
  | c :: cs, cur =>
    if wordChar c then wordRunsGo cs (c :: cur)
    else if cur.isEmpty then wordRunsGo cs [] else cur.reverse :: wordRunsGo cs []

/-- The tokens `TfidfVectorizer` finds in a document: lowercase, then
the maximal word-character runs of length at least two (the default
token pattern). -/
def sklearnTokens (s : String) : List String :=
  ((wordRunsGo (s.data.map Char.toLower) []).filter (fun r => 2 ≤ r.length)).map String.mk

/-- `fit_transform` on the pair raises (empty vocabulary) exactly when
neither document has a token. -/
def tfidf_raises (a b : String) : Bool :=
  (sklearnTokens a ++ sklearnTokens b).isEmpty

/-- Decimal text of the experience number as the f-string would print
it; only its tokenization ever matters. -/
def fracDigitsGo : Nat → Nat → Nat → List Char
  | 0, _, _ => []
  | _, 0, _ => []
  | fuel + 1, r, d =>
    Char.ofNat (48 + r * 10 / d) :: fracDigitsGo fuel (r * 10 % d) d

def expRepr (q : ℚ) : String :=
  if q.den = 1 then toString q.num
  else toString q.num ++ "." ++ String.mk (fracDigitsGo 30 (q.num.natAbs % q.den) q.den)

/-- Python `" ".join`. -/
def joinSpace (l : List String) : String :=
  match l with
  | [] => ""
  | s :: ss => ss.foldl (fun acc t => acc ++ " " ++ t) s

/-- `req_text` of `compute_fit`: the flattened requirement document fed
to the vectorizer. -/
def req_text (requirements : Requirements) : String :=
  joinSpace requirements.skills ++ " " ++ joinSpace requirements.education ++
    (match requirements.experience with
     | some e => " " ++ expRepr e ++ " years experience"
     | none => "")

/-- `compute_fit` including the library call: the similarity
computation raises on an empty vocabulary and the source does not catch
it, so the whole call either returns the pair or propagates the
error. -/
def compute_fit_checked (sim : ℚ) (requirements : Requirements)
    (resume_text : String) : Except String (ℚ × Breakdown) :=
  if tfidf_raises (req_text requirements) resume_text then
    Except.error "empty vocabulary"
  else Except.ok (compute_fit sim requirements resume_text)

/-! ### Quality feedback `resume_quality` -/

def ACTION_VERBS : List String := [
  "built", "developed", "designed", "led", "optimized", "implemented", "launched",
  "automated", "reduced", "increased", "improved", "delivered", "owned", "created",
  "engineered", "constructed", "initiated", "executed", "analyzed", "produced",
  "managed", "mentored", "collaborated", "pioneered", "streamlined", "transformed",
  "generated", "identified", "resolved", "researched", "trained", "verified", "conceptualized"
]

def GENERIC_PHRASES : List String := [
  "responsible for", "worked on", "helped with", "involved in", "participated in",
  "hardworking", "team player", "result-oriented", "self-starter",
  "duties included", "tasked with", "a strong communicator", "goal-oriented", "flexible"
]

def SECTIONS : List String := [
  "education", "experience", "projects", "skills", "certifications",
  "summary", "achievements", "objective", "internships", "work"
]

/-- Case-insensitive prefix match, returning the rest. -/
def dropPrefixCI : List Char → List Char → Option (List Char)
  | [], l => some l
  | _ :: _, [] => none
  | a :: as, b :: bs =>
    if a.toLower = b.toLower then dropPrefixCI as bs else none

/-- Does a maximal word run end in `ed` (case-insensitively)? -/
def endsEd (l : List Char) : Bool :=
  match l.reverse with
  | d :: e :: _ => d.toLower = 'd' && e.toLower = 'e'
  | _ => false

/-- The `PASSIVE_HINT` pattern matched at the head of `l`: one of the
auxiliary words, at least one whitespace, then a word run of length at
least three ending in `ed` (the trailing lazy optional `by` group
always matches empty and is dropped). -/
def passiveAt (l : List Char) : Bool :=
  ["was", "were", "is", "are", "been", "being", "be"].any (fun w =>
    match dropPrefixCI w.data l with
    | none => false
    | some rest =>
      match rest with
      | c :: _ =>
        pyWs c &&
          (let run := (rest.dropWhile pyWs).takeWhile wordChar
           decide (3 ≤ run.length) && endsEd run)
      | [] => false)

/-- Scan for `PASSIVE_HINT.search`; the flag records whether the
previous character was a word character (the word boundary before the
auxiliary). -/
def hasPassiveGo : List Char → Bool → Bool
  | [], _ => false
  | c :: cs, prevWord =>
    (if prevWord then false else passiveAt (c :: cs)) || hasPassiveGo cs (wordChar c)

def hasPassive (text : String) : Bool := hasPassiveGo text.data false

/-- The pattern `\b\d+%\b` matched at the head: digits, a percent sign,
and a word character right after it (the only way a boundary follows
`%`). -/
def pctAt (l : List Char) : Bool :=
  !(l.takeWhile digitChar).isEmpty &&
    (match l.dropWhile digitChar with
     | '%' :: next :: _ => wordChar next
     | _ => false)

def hasPctGo : List Char → Bool → Bool
  | [], _ => false
  | c :: cs, prevWord =>
    (if prevWord then false else pctAt (c :: cs)) || hasPctGo cs (wordChar c)

def hasPct (text : String) : Bool := hasPctGo text.data false

/-- The pattern `\b\d+\b` matched at the head: a maximal digit run
followed by a non-word character or the end. -/
def numAt (l : List Char) : Bool :=
  !(l.takeWhile digitChar).isEmpty &&
    (match l.dropWhile digitChar with
     | [] => true
     | c :: _ => !wordChar c)

def hasNumGo : List Char → Bool → Bool
  | [], _ => false
  | c :: cs, prevWord =>
    (if prevWord then false else numAt (c :: cs)) || hasNumGo cs (wordChar c)

def hasNum (text : String) : Bool := hasNumGo text.data false

/-- Python `", ".join`. -/
def joinComma (l : List String) : String :=
  match l with
  | [] => ""
  | s :: ss => ss.foldl (fun acc t => acc ++ ", " ++ t) s

/-- The grammar-issue loop of `resume_quality`: strip each message,
keep it when nonempty and unseen, stop once ten are kept. -/
def collectIssuesGo : List String → List String → List String → List String
  | [], issues, _ => issues.reverse
  | m :: ms, issues, seen =>
    let msg := pyStrip m
    if msg = "" ∨ seen.contains msg then
      (if 10 ≤ issues.length then issues.reverse else collectIssuesGo ms issues seen)
    else
      (if 10 ≤ (msg :: issues).length then (msg :: issues).reverse
       else collectIssuesGo ms (msg :: issues) (msg :: seen))

/-- The dict returned by `resume_quality`; `readability` is the metric
triple or `{}`. -/
structure QualityReport where
  readability : Option (ℚ × ℚ × ℚ)
  grammar_issues : List String
  suggestions : List String

/-- `resume_quality` of the source.  The optional backends are
parameters: `none` models an unavailable library, `Except.error` a call
that raises (both caught by the source), `Except.ok` a successful
call. -/
def resume_quality (textstatB : Option (String → Except Unit (ℚ × ℚ × ℚ)))
    (grammarB : Option (String → Except Unit (List String)))
    (resume_text : String) : QualityReport :=
  let text_norm := normalize resume_text
  let missing_sections := SECTIONS.filter (fun s => !strContains text_norm s)
  let tipsSection : List String :=
    if missing_sections.isEmpty then []
    else ["Consider adding sections: " ++ joinComma (missing_sections.take 3) ++ "."]
  let tipsVerb : List String :=
    if ACTION_VERBS.any (fun av => strContains text_norm av) then []
    else ["Use strong action verbs (e.g., built, optimized, implemented) at bullet starts."]
  let tipsGeneric : List String :=
    match GENERIC_PHRASES.find? (fun gp => strContains text_norm gp) with
    | some gp => ["Replace generic phrase " ++ gp ++ " with specific, impact-focused wording."]
    | none => []
  let tipsPassive : List String :=
    if hasPassive resume_text then
      ["Reduce passive voice; prefer active constructions (e.g., Designed X vs X was designed)."]
    else []
  let tipsQuant : List String :=
    if !hasPct resume_text && !hasNum resume_text then
      ["Quantify impact with numbers (e.g., reduced latency by 35 percent)."]
    else []
  let readability : Option (ℚ × ℚ × ℚ) :=
    match textstatB with
    | none => none
    | some f =>
      match f resume_text with
      | Except.ok m => some m
      | Except.error _ => none
  let tipsRead : List String :=
    match textstatB with
    | none => []
    | some f =>
      match f resume_text with
      | Except.ok _ => ["Aim for concise bullets (typically 10-20 words). Avoid long sentences."]
      | Except.error _ => []
  let grammar_issues :=
    match grammarB with
    | none => []
    | some f =>
      match f resume_text with
      | Except.ok ms => collectIssuesGo ms [] []
      | Except.error _ => []
  { readability := readability
    grammar_issues := grammar_issues
    suggestions := tipsSection ++ tipsVerb ++ tipsGeneric ++ tipsPassive ++
      tipsQuant ++ tipsRead }



/-! ## Helper lemmas: sets as duplicate-free lists -/

theorem mem_dedupGo (x : String) : ∀ (l seen : List String),
    x ∈ dedupGo l seen ↔ x ∈ l ∧ x ∉ seen := by
  intro l
  induction l with
  | nil => intro seen; simp [dedupGo]
  | cons s ss ih =>
    intro seen
    rw [dedupGo]
    by_cases hs : s ∈ seen
    · rw [if_pos (by simpa using hs), ih]
      simp only [List.mem_cons]
      constructor
      · rintro ⟨hx, hnx⟩
        exact ⟨Or.inr hx, hnx⟩
      · rintro ⟨rfl | hx, hnx⟩
        · exact absurd hs hnx
        · exact ⟨hx, hnx⟩
    · rw [if_neg (by simpa using hs)]
      simp only [List.mem_cons, ih, List.mem_cons]
      constructor
      · rintro (rfl | ⟨hx, hnx⟩)
        · exact ⟨Or.inl rfl, hs⟩
        · refine ⟨Or.inr hx, fun hxseen => hnx (Or.inr hxseen)⟩
      · rintro ⟨rfl | hx, hnx⟩
        · exact Or.inl rfl
        · by_cases hxs : x = s
          · exact Or.inl hxs
          · refine Or.inr ⟨hx, ?_⟩
            rintro (h | h)
            · exact hxs h
            · exact hnx h

theorem mem_dedupStr (x : String) (l : List String) : x ∈ dedupStr l ↔ x ∈ l := by
  rw [dedupStr, mem_dedupGo]
  simp

theorem nodup_dedupGo : ∀ (l seen : List String), (dedupGo l seen).Nodup := by
  intro l
  induction l with
  | nil => intro seen; simp [dedupGo]
  | cons s ss ih =>
    intro seen
    rw [dedupGo]
    by_cases hs : s ∈ seen
    · rw [if_pos (by simpa using hs)]; exact ih seen
    · rw [if_neg (by simpa using hs)]
      refine List.nodup_cons.mpr ⟨fun hmem => ?_, ih (s :: seen)⟩
      have := (mem_dedupGo s ss (s :: seen)).mp hmem
      exact this.2 (List.mem_cons_self s seen)

theorem nodup_dedupStr (l : List String) : (dedupStr l).Nodup := nodup_dedupGo l []

/-! ## Helper lemmas: sorting in code-point order -/

theorem lexLt_iff : ∀ (as bs : List Char), lexLt as bs = true ↔ List.Lex (· < ·) as bs := by
  intro as
  induction as with
  | nil =>
    intro bs
    cases bs with
    | nil =>
      rw [lexLt]
      simp only [Bool.false_eq_true, false_iff]
      exact List.Lex.not_nil_right _ _
    | cons b bs =>
      rw [lexLt]
      simp only [true_iff]
      exact List.Lex.nil
  | cons a as ih =>
    intro bs
    cases bs with
    | nil =>
      rw [lexLt]
      simp only [Bool.false_eq_true, false_iff]
      exact List.Lex.not_nil_right _ _
    | cons b bs =>
      rw [lexLt]
      rcases Nat.lt_trichotomy a.toNat b.toNat with h | h | h
      · rw [if_pos h]
        simp only [true_iff]
        exact List.Lex.rel h
      · have hab : a = b := Char.ext (UInt32.toNat.inj h)
        subst hab
        rw [if_neg (lt_irrefl _), if_neg (lt_irrefl _), ih bs]
        exact Iff.symm List.Lex.cons_iff
      · rw [if_neg (Nat.lt_asymm h), if_pos h]
        simp only [Bool.false_eq_true, false_iff]
        intro hlex
        cases hlex with
        | cons h2 => exact absurd h (lt_irrefl _)
        | rel h2 => exact absurd h (Nat.lt_asymm h2)

theorem strLtB_iff (a b : String) : strLtB a b = true ↔ a < b := by
  rw [strLtB, lexLt_iff]
  exact Iff.symm String.lt_iff_toList_lt

theorem strLtB_false_iff (a b : String) : strLtB a b = false ↔ b ≤ a := by
  rw [Bool.eq_false_iff]
  constructor
  · intro h
    exact not_lt.mp (fun hlt => h ((strLtB_iff a b).mpr hlt))
  · intro h hb
    exact absurd ((strLtB_iff a b).mp hb) (not_lt.mpr h)

theorem mem_insertStr (s x : String) : ∀ (l : List String),
    x ∈ insertStr s l ↔ x = s ∨ x ∈ l := by
  intro l
  induction l with
  | nil => simp [insertStr]
  | cons t ts ih =>
    rw [insertStr]
    by_cases h : strLtB t s = true
    · rw [if_pos h]
      simp only [List.mem_cons, ih]
      tauto
    · rw [if_neg h]
      simp only [List.mem_cons]

theorem sorted_insertStr (s : String) : ∀ (l : List String),
    l.Sorted (· ≤ ·) → (insertStr s l).Sorted (· ≤ ·) := by
  intro l
  induction l with
  | nil =>
    intro _
    simp [insertStr]
  | cons t ts ih =>
    intro h
    rw [List.sorted_cons] at h
    obtain ⟨ht, hts⟩ := h
    rw [insertStr]
    by_cases hlt : strLtB t s = true
    · rw [if_pos hlt, List.sorted_cons]
      refine ⟨?_, ih hts⟩
      intro b hb
      rcases (mem_insertStr s b ts).mp hb with hbs | hbts
      · rw [hbs]
        exact le_of_lt ((strLtB_iff t s).mp hlt)
      · exact ht b hbts
    · have hst : s ≤ t := (strLtB_false_iff t s).mp (Bool.eq_false_iff.mpr hlt)
      rw [if_neg hlt, List.sorted_cons]
      refine ⟨?_, List.sorted_cons.mpr ⟨ht, hts⟩⟩
      intro b hb
      rcases List.mem_cons.mp hb with rfl | hbts
      · exact hst
      · exact hst.trans (ht b hbts)

theorem sorted_sortStr : ∀ (l : List String), (sortStr l).Sorted (· ≤ ·) := by
  intro l
  induction l with
  | nil => simp [sortStr]
  | cons s ss ih =>
    rw [sortStr]
    exact sorted_insertStr s _ ih

theorem mem_sortStr (x : String) : ∀ (l : List String), x ∈ sortStr l ↔ x ∈ l := by
  intro l
  induction l with
  | nil => simp [sortStr]
  | cons s ss ih =>
    rw [sortStr, mem_insertStr]
    simp [ih]

/-! ## Helper lemmas: the breakdown record of compute_fit -/

theorem compute_fit_skills (sim : ℚ) (requirements : Requirements) (resume_text : String) :
    (compute_fit sim requirements resume_text).2.skills =
      skills_score requirements resume_text := rfl

theorem compute_fit_experience (sim : ℚ) (requirements : Requirements) (resume_text : String) :
    (compute_fit sim requirements resume_text).2.experience =
      exp_score requirements resume_text := rfl

theorem compute_fit_education (sim : ℚ) (requirements : Requirements) (resume_text : String) :
    (compute_fit sim requirements resume_text).2.education =
      education_match_score requirements resume_text := rfl

theorem compute_fit_matched (sim : ℚ) (requirements : Requirements) (resume_text : String) :
    (compute_fit sim requirements resume_text).2.matched_skills =
      sortStr (inter_skills requirements resume_text) := rfl

theorem compute_fit_missing (sim : ℚ) (requirements : Requirements) (resume_text : String) :
    (compute_fit sim requirements resume_text).2.missing_skills =
      sortStr (diff_skills requirements resume_text) := rfl

theorem compute_fit_fst (sim : ℚ) (requirements : Requirements) (resume_text : String) :
    (compute_fit sim requirements resume_text).1 =
      pyRound2 (0.9 * ((skills_score requirements resume_text : ℚ) * 0.6 +
        (exp_score requirements resume_text : ℚ) * 0.25 +
        (education_match_score requirements resume_text : ℚ) * 0.15) +
        0.1 * (sim * 100)) := rfl

theorem set_req_isEmpty (requirements : Requirements) :
    (set_req requirements).isEmpty = requirements.skills.isEmpty := by
  rcases h : requirements.skills with _ | ⟨s, ss⟩
  · rw [set_req, req_skills, h]
    rfl
  · have h2 : set_req requirements =
        canonicalize_skill s :: dedupGo (ss.map canonicalize_skill) [canonicalize_skill s] := by
      rw [set_req, req_skills, h]
      rfl
    rw [h2]
    rfl

/-! ## Claim theorems (first batch) -/

/-- C1: the claim states that the similarity computation is well-defined and
never raises, even when both the requirement text and the resume text are
empty.  The code violates this: with no requirements and an empty resume both
documents passed to the vectorizer have no token, `fit_transform` raises the
empty-vocabulary error, and `compute_fit` does not catch it.  This theorem
evaluates the model at that failing input. -/
theorem compute_fit_empty_raises :
    compute_fit_checked 0 ⟨[], none, []⟩ "" = Except.error "empty vocabulary" := rfl

/-- C5: the education score is exactly one of 40, 70, 100; it is 100 exactly
when required education is non-empty and a field-of-study match is found and a
degree keyword is present; 70 exactly when a field match or a degree keyword is
present but not all top-tier conditions hold; 40 exactly when neither a field
match nor a degree keyword is found. -/
theorem education_score_tiers (requirements : Requirements) (resume_text : String) :
    (education_match_score requirements resume_text = 40 ∨
      education_match_score requirements resume_text = 70 ∨
      education_match_score requirements resume_text = 100) ∧
    (education_match_score requirements resume_text = 100 ↔
      (requirements.education ≠ [] ∧ edu_field_match requirements resume_text = true ∧
        has_degree resume_text = true)) ∧
    (education_match_score requirements resume_text = 70 ↔
      ((edu_field_match requirements resume_text = true ∨ has_degree resume_text = true) ∧
        ¬(requirements.education ≠ [] ∧ edu_field_match requirements resume_text = true ∧
          has_degree resume_text = true))) ∧
    (education_match_score requirements resume_text = 40 ↔
      (edu_field_match requirements resume_text = false ∧ has_degree resume_text = false)) := by
  cases hE : edu_field_match requirements resume_text <;>
    cases hD : has_degree resume_text <;>
    rcases hR : requirements.education with _ | ⟨e, es⟩ <;>
    simp [education_match_score, hE, hD, hR]

/-- C3: the skills sub-score is the rounded percentage of required canonical
skills found among the candidate's canonical skills, and 100 when the required
skills list is empty. -/
theorem skills_score_spec (sim : ℚ) (requirements : Requirements) (resume_text : String) :
    (compute_fit sim requirements resume_text).2.skills =
      (if requirements.skills = [] then 100
       else pyRound (100 * ((inter_skills requirements resume_text).length : ℚ) /
         ((set_req requirements).length : ℚ))) := by
  rw [compute_fit_skills, skills_score]
  by_cases h : requirements.skills = []
  · rw [if_pos h, jacc, if_pos (by rw [set_req_isEmpty, h]; rfl)]
    norm_num [pyRound]
  · have hne : (set_req requirements).isEmpty = false := by
      rw [set_req_isEmpty]
      rcases hs : requirements.skills with _ | ⟨s, ss⟩
      · exact absurd hs h
      · rfl
    rw [if_neg h, jacc, if_neg (by simp [hne])]
    congr 1
    ring


/-! ## Helper lemmas: Python rounding and truncation -/

theorem pyInt_eq_floor (q : ℚ) (h : 0 ≤ q) : pyInt q = ⌊q⌋ :=
  if_neg (not_lt.mpr h)

theorem pyRound_nonneg (q : ℚ) (h : 0 ≤ q) : 0 ≤ pyRound q := by
  have h1 : (0 : ℤ) ≤ ⌊q⌋ := Int.floor_nonneg.mpr h
  rw [pyRound]
  split_ifs <;> omega

theorem pyRound_le (q : ℚ) (n : ℤ) (h : q ≤ (n : ℚ)) : pyRound q ≤ n := by
  have hf : ⌊q⌋ ≤ n := by
    have h2 := Int.floor_le_floor h
    rwa [Int.floor_intCast] at h2
  have hfl : (⌊q⌋ : ℚ) ≤ q := Int.floor_le q
  rw [pyRound]
  split_ifs with h1 h2 h3
  · exact hf
  · have hhalf : (1 : ℚ)/2 ≤ q - ⌊q⌋ := not_lt.mp h1
    have hlt : (⌊q⌋ : ℚ) < (n : ℚ) := by linarith
    have hzlt : ⌊q⌋ < n := by exact_mod_cast hlt
    omega
  · exact hf
  · have hhalf : (1 : ℚ)/2 ≤ q - ⌊q⌋ := not_lt.mp h1
    have hlt : (⌊q⌋ : ℚ) < (n : ℚ) := by linarith
    have hzlt : ⌊q⌋ < n := by exact_mod_cast hlt
    omega

theorem pyRound2_nonneg (q : ℚ) (h : 0 ≤ q) : 0 ≤ pyRound2 q := by
  rw [pyRound2]
  have h1 : (0 : ℤ) ≤ pyRound (q * 100) := pyRound_nonneg _ (by linarith)
  have h2 : (0 : ℚ) ≤ (pyRound (q * 100) : ℚ) := by exact_mod_cast h1
  linarith

theorem pyRound2_le_100 (q : ℚ) (h : q ≤ 100) : pyRound2 q ≤ 100 := by
  rw [pyRound2]
  have h1 : pyRound (q * 100) ≤ (10000 : ℤ) := by
    apply pyRound_le
    push_cast
    linarith
  have h2 : (pyRound (q * 100) : ℚ) ≤ 10000 := by exact_mod_cast h1
  linarith

/-! ## Helper lemmas: the extracted years are nonnegative -/

theorem le_foldl_max (v : ℚ) : ∀ (vs : List ℚ), v ≤ vs.foldl max v := by
  intro vs
  induction vs generalizing v with
  | nil => exact le_refl v
  | cons w ws ih =>
    calc v ≤ max v w := le_max_left v w
    _ ≤ (ws.foldl max (max v w)) := ih (max v w)

theorem yearsVal_nonneg (t : Nat × Nat × Nat) : 0 ≤ yearsVal t := by
  rw [yearsVal]
  positivity

theorem extract_years_nonneg (text : String) :
    ∀ v, extract_years_of_experience text = some v → 0 ≤ v := by
  intro v hv
  rw [extract_years_of_experience] at hv
  rcases hm : (findYearsGo text.data.length text.data).map yearsVal with _ | ⟨w, ws⟩
  · rw [hm] at hv
    cases hv
  · rw [hm] at hv
    have hw : 0 ≤ w := by
      have : w ∈ (findYearsGo text.data.length text.data).map yearsVal := by
        rw [hm]
        exact List.mem_cons_self w ws
      obtain ⟨t, _, ht⟩ := List.mem_map.mp this
      rw [← ht]
      exact yearsVal_nonneg t
    have : some (ws.foldl max w) = some v := hv
    have hfold := le_foldl_max w ws
    have hv2 : ws.foldl max w = v := Option.some.inj this
    rw [hv2] at hfold
    linarith

theorem cand_years_nonneg (resume_text : String) : 0 ≤ cand_years resume_text := by
  rw [cand_years]
  rcases h : extract_years_of_experience resume_text with _ | v
  · simp
  · simp only [Option.getD_some]
    exact extract_years_nonneg resume_text v h

/-! ## Claim C4 -/

/-- C4: the experience sub-score of compute_fit is 100 when required
experience is absent or zero, 100 when the extracted candidate years reach the
requirement, and otherwise the floor of 40 plus 60 times the ratio of
candidate to required years with negative ratios clamped to zero; in
particular a 5-year requirement met exactly scores 100, a 5-year requirement
against 2.5 extracted years scores 70, and a zero or absent requirement scores
100 whatever the resume says. -/
theorem experience_score_spec (sim : ℚ) (requirements : Requirements) (resume_text : String) :
    ((compute_fit sim requirements resume_text).2.experience =
      match requirements.experience with
      | none => 100
      | some req_years =>
        if req_years = 0 then 100
        else if cand_years resume_text ≥ req_years then 100
        else ⌊(40 : ℚ) + 60 * max 0 (cand_years resume_text / req_years)⌋) ∧
    (compute_fit sim ⟨[], some 5, []⟩ "5 years experience").2.experience = 100 ∧
    (compute_fit sim ⟨[], some 5, []⟩ "2.5 years experience").2.experience = 70 ∧
    (compute_fit sim ⟨[], some 0, []⟩ "12 years experience").2.experience = 100 ∧
    (compute_fit sim ⟨[], none, []⟩ "12 years experience").2.experience = 100 := by
  have hy5 : extract_years_of_experience "5 years experience" = some 5 := by
    have h0 : findYearsGo ("5 years experience".data.length) ("5 years experience".data) =
        [(5, 0, 0)] := by decide
    rw [extract_years_of_experience, h0]
    norm_num [yearsVal]
  have hy25 : extract_years_of_experience "2.5 years experience" = some (5/2) := by
    have h0 : findYearsGo ("2.5 years experience".data.length) ("2.5 years experience".data) =
        [(2, 5, 1)] := by decide
    rw [extract_years_of_experience, h0]
    norm_num [yearsVal]
  have hy12 : extract_years_of_experience "12 years experience" = some 12 := by
    have h0 : findYearsGo ("12 years experience".data.length) ("12 years experience".data) =
        [(12, 0, 0)] := by decide
    rw [extract_years_of_experience, h0]
    norm_num [yearsVal]
  refine ⟨?_, ?_, ?_, ?_, ?_⟩
  · rw [compute_fit_experience, exp_score]
    cases hre : requirements.experience with
    | none => rfl
    | some r =>
      show (if r = 0 then (100 : ℤ)
            else if cand_years resume_text ≥ r then 100
            else pyInt (40 + 60 * max 0 (cand_years resume_text / r))) =
        (if r = 0 then (100 : ℤ)
         else if cand_years resume_text ≥ r then 100
         else ⌊(40 : ℚ) + 60 * max 0 (cand_years resume_text / r)⌋)
      by_cases h0 : r = 0
      · rw [if_pos h0, if_pos h0]
      · rw [if_neg h0, if_neg h0]
        by_cases hc : cand_years resume_text ≥ r
        · rw [if_pos hc, if_pos hc]
        · rw [if_neg hc, if_neg hc]
          apply pyInt_eq_floor
          have hm : (0 : ℚ) ≤ max 0 (cand_years resume_text / r) := le_max_left 0 _
          linarith
  · rw [compute_fit_experience]
    norm_num [exp_score, cand_years, hy5]
  · rw [compute_fit_experience]
    have hmax : max (0 : ℚ) (5/2/5) = 1/2 := by
      rw [max_eq_right] <;> norm_num
    norm_num [exp_score, cand_years, hy25, hmax, pyInt]
  · rw [compute_fit_experience]
    norm_num [exp_score]
  · rw [compute_fit_experience]
    norm_num [exp_score]


/-! ## Helper lemmas: the three sub-scores are bounded -/

theorem skills_score_bounds (requirements : Requirements) (resume_text : String) :
    0 ≤ skills_score requirements resume_text ∧
      skills_score requirements resume_text ≤ 100 := by
  rw [skills_score]
  have hj : 0 ≤ jacc requirements resume_text ∧ jacc requirements resume_text ≤ 1 := by
    rw [jacc]
    split_ifs with h
    · norm_num
    · constructor
      · positivity
      · have hlen : (inter_skills requirements resume_text).length ≤
            (set_req requirements).length := List.length_filter_le _ _
        have hpos : 0 < (set_req requirements).length := by
          rcases hsr : set_req requirements with _ | ⟨a, as⟩
          · rw [hsr] at h
            simp at h
          · simp
        rw [div_le_one (by exact_mod_cast hpos)]
        exact_mod_cast hlen
  constructor
  · exact pyRound_nonneg _ (by nlinarith [hj.1])
  · apply pyRound_le
    push_cast
    nlinarith [hj.1, hj.2]

theorem exp_score_bounds (requirements : Requirements) (resume_text : String) :
    0 ≤ exp_score requirements resume_text ∧
      exp_score requirements resume_text ≤ 100 := by
  rw [exp_score]
  cases hre : requirements.experience with
  | none => norm_num
  | some r =>
    show 0 ≤ (if r = 0 then (100 : ℤ)
              else if cand_years resume_text ≥ r then 100
              else pyInt (40 + 60 * max 0 (cand_years resume_text / r))) ∧
      (if r = 0 then (100 : ℤ)
       else if cand_years resume_text ≥ r then 100
       else pyInt (40 + 60 * max 0 (cand_years resume_text / r))) ≤ 100
    by_cases h0 : r = 0
    · rw [if_pos h0]
      norm_num
    · rw [if_neg h0]
      by_cases hc : cand_years resume_text ≥ r
      · rw [if_pos hc]
        norm_num
      · rw [if_neg hc]
        have hcy := cand_years_nonneg resume_text
        have hr : 0 < r := by
          rcases lt_trichotomy r 0 with h | h | h
          · exact absurd (lt_of_lt_of_le h hcy).le hc
          · exact absurd h h0
          · exact h
        have hm0 : (0 : ℚ) ≤ max 0 (cand_years resume_text / r) := le_max_left 0 _
        have hm1 : max 0 (cand_years resume_text / r) < 1 := by
          rw [max_lt_iff]
          refine ⟨by norm_num, ?_⟩
          rw [div_lt_one hr]
          exact not_le.mp hc
        rw [pyInt_eq_floor _ (by linarith)]
        constructor
        · exact Int.floor_nonneg.mpr (by linarith)
        · have hle : (40 : ℚ) + 60 * max 0 (cand_years resume_text / r) ≤ 100 := by linarith
          have hf := Int.floor_le_floor hle
          rwa [show ⌊(100 : ℚ)⌋ = 100 by norm_num] at hf

theorem edu_score_bounds (requirements : Requirements) (resume_text : String) :
    0 ≤ education_match_score requirements resume_text ∧
      education_match_score requirements resume_text ≤ 100 := by
  rw [education_match_score]
  split_ifs <;> norm_num

/-! ## Claim C2 -/

/-- C2: for every similarity value the library can return (a cosine in the
unit interval), the overall score of compute_fit equals the two-decimal
rounding of 0.9 times the weighted base (0.6 skills + 0.25 experience + 0.15
education) plus 0.1 times the semantic similarity scaled to 100, and that
overall score lies in the interval from 0 to 100. -/
theorem overall_score_spec (sim : ℚ) (requirements : Requirements) (resume_text : String)
    (h0 : 0 ≤ sim) (h1 : sim ≤ 1) :
    (compute_fit sim requirements resume_text).1 =
      pyRound2 (0.9 * (0.6 * ((compute_fit sim requirements resume_text).2.skills : ℚ) +
        0.25 * ((compute_fit sim requirements resume_text).2.experience : ℚ) +
        0.15 * ((compute_fit sim requirements resume_text).2.education : ℚ)) +
        0.1 * (sim * 100)) ∧
    0 ≤ (compute_fit sim requirements resume_text).1 ∧
    (compute_fit sim requirements resume_text).1 ≤ 100 := by
  obtain ⟨hs0, hs1⟩ := skills_score_bounds requirements resume_text
  obtain ⟨he0, he1⟩ := exp_score_bounds requirements resume_text
  obtain ⟨hd0, hd1⟩ := edu_score_bounds requirements resume_text
  have hsq0 : (0 : ℚ) ≤ (skills_score requirements resume_text : ℚ) := by exact_mod_cast hs0
  have hsq1 : (skills_score requirements resume_text : ℚ) ≤ 100 := by exact_mod_cast hs1
  have heq0 : (0 : ℚ) ≤ (exp_score requirements resume_text : ℚ) := by exact_mod_cast he0
  have heq1 : (exp_score requirements resume_text : ℚ) ≤ 100 := by exact_mod_cast he1
  have hdq0 : (0 : ℚ) ≤ (education_match_score requirements resume_text : ℚ) := by
    exact_mod_cast hd0
  have hdq1 : (education_match_score requirements resume_text : ℚ) ≤ 100 := by
    exact_mod_cast hd1
  have harg0 : (0 : ℚ) ≤ 0.9 * ((skills_score requirements resume_text : ℚ) * 0.6 +
      (exp_score requirements resume_text : ℚ) * 0.25 +
      (education_match_score requirements resume_text : ℚ) * 0.15) +
      0.1 * (sim * 100) := by nlinarith
  have harg1 : 0.9 * ((skills_score requirements resume_text : ℚ) * 0.6 +
      (exp_score requirements resume_text : ℚ) * 0.25 +
      (education_match_score requirements resume_text : ℚ) * 0.15) +
      0.1 * (sim * 100) ≤ 100 := by nlinarith
  refine ⟨?_, ?_, ?_⟩
  · rw [compute_fit_fst, compute_fit_skills, compute_fit_experience, compute_fit_education]
    congr 1
    ring
  · rw [compute_fit_fst]
    exact pyRound2_nonneg _ harg0
  · rw [compute_fit_fst]
    exact pyRound2_le_100 _ harg1

/-- Witness for C2: the theorem applied at similarity one half, empty
requirements and an empty resume. -/
theorem overall_score_spec_witness :
    (compute_fit (1/2) ⟨[], none, []⟩ "").1 =
      pyRound2 (0.9 * (0.6 * ((compute_fit (1/2) ⟨[], none, []⟩ "").2.skills : ℚ) +
        0.25 * ((compute_fit (1/2) ⟨[], none, []⟩ "").2.experience : ℚ) +
        0.15 * ((compute_fit (1/2) ⟨[], none, []⟩ "").2.education : ℚ)) +
        0.1 * ((1/2 : ℚ) * 100)) ∧
    0 ≤ (compute_fit (1/2) ⟨[], none, []⟩ "").1 ∧
    (compute_fit (1/2) ⟨[], none, []⟩ "").1 ≤ 100 :=
  overall_score_spec (1/2) ⟨[], none, []⟩ "" (by norm_num) (by norm_num)


/-! ## Helper lemmas: lowercase and strip, toward canonicalization idempotence -/

theorem char_toNat_ofNat {n : Nat} (h : n < 55296) : (Char.ofNat n).toNat = n := by
  rw [Char.ofNat, dif_pos (Or.inl h)]
  rfl

theorem toLower_toNat_of_upper (c : Char) (h : 65 ≤ c.toNat ∧ c.toNat ≤ 90) :
    (Char.toLower c).toNat = c.toNat + 32 := by
  rw [Char.toLower, if_pos ⟨h.1, h.2⟩]
  exact char_toNat_ofNat (by omega)

theorem toLower_eq_self (c : Char) (h : ¬(65 ≤ c.toNat ∧ c.toNat ≤ 90)) :
    Char.toLower c = c := by
  show (if c.toNat ≥ 65 ∧ c.toNat ≤ 90 then Char.ofNat (c.toNat + 32) else c) = c
  rw [if_neg (fun hc => h ⟨hc.1, hc.2⟩)]

theorem toLower_idem (c : Char) : Char.toLower (Char.toLower c) = Char.toLower c := by
  by_cases h : 65 ≤ c.toNat ∧ c.toNat ≤ 90
  · have h2 := toLower_toNat_of_upper c h
    apply toLower_eq_self
    rw [h2]
    omega
  · rw [toLower_eq_self c h, toLower_eq_self c h]

theorem pyWs_toLower (c : Char) : pyWs (Char.toLower c) = pyWs c := by
  by_cases h : 65 ≤ c.toNat ∧ c.toNat ≤ 90
  · have h2 := toLower_toNat_of_upper c h
    rw [pyWs, pyWs, h2, Bool.eq_iff_iff]
    simp only [Bool.or_eq_true, decide_eq_true_eq]
    omega
  · rw [toLower_eq_self c h]

theorem dropWhile_map_toLower (l : List Char) :
    (l.map Char.toLower).dropWhile pyWs = (l.dropWhile pyWs).map Char.toLower := by
  induction l with
  | nil => rfl
  | cons c cs ih =>
    rw [List.map_cons, List.dropWhile_cons, List.dropWhile_cons, pyWs_toLower]
    by_cases h : pyWs c = true
    · rw [if_pos h, if_pos h]
      exact ih
    · rw [if_neg h, if_neg h, List.map_cons]

theorem isEmpty_map_toLower (l : List Char) :
    (l.map Char.toLower).isEmpty = l.isEmpty := by
  cases l <;> rfl

theorem dropTrailWs_map_toLower (l : List Char) :
    dropTrailWs (l.map Char.toLower) = (dropTrailWs l).map Char.toLower := by
  induction l with
  | nil => rfl
  | cons c cs ih =>
    rw [List.map_cons, dropTrailWs, dropTrailWs, ih, pyWs_toLower, isEmpty_map_toLower]
    by_cases h : (pyWs c && (dropTrailWs cs).isEmpty) = true
    · rw [if_pos h, if_pos h]
      rfl
    · rw [if_neg h, if_neg h, List.map_cons]

theorem dropWhile_head_false (l : List Char) :
    ∀ c cs, l.dropWhile pyWs = c :: cs → pyWs c = false := by
  induction l with
  | nil =>
    intro c cs h
    cases h
  | cons a as ih =>
    intro c cs h
    rw [List.dropWhile_cons] at h
    by_cases ha : pyWs a = true
    · rw [if_pos ha] at h
      exact ih c cs h
    · rw [if_neg ha] at h
      cases h
      exact Bool.eq_false_iff.mpr ha

theorem dropTrailWs_head (c : Char) (cs : List Char) :
    dropTrailWs (c :: cs) = [] ∨ ∃ ds, dropTrailWs (c :: cs) = c :: ds := by
  rw [dropTrailWs]
  by_cases h : (pyWs c && (dropTrailWs cs).isEmpty) = true
  · rw [if_pos h]
    exact Or.inl rfl
  · rw [if_neg h]
    exact Or.inr ⟨_, rfl⟩

theorem dropTrailWs_idem (l : List Char) : dropTrailWs (dropTrailWs l) = dropTrailWs l := by
  induction l with
  | nil => rfl
  | cons c cs ih =>
    rw [dropTrailWs]
    by_cases h : (pyWs c && (dropTrailWs cs).isEmpty) = true
    · rw [if_pos h]
      rfl
    · rw [if_neg h, dropTrailWs, ih, if_neg h]

theorem dropWhile_dropTrailWs_of_head (l : List Char)
    (hl : ∀ c cs, l = c :: cs → pyWs c = false) :
    (dropTrailWs l).dropWhile pyWs = dropTrailWs l := by
  cases l with
  | nil => rfl
  | cons c cs =>
    have hc : pyWs c = false := hl c cs rfl
    rcases dropTrailWs_head c cs with h | ⟨ds, h⟩
    · rw [h]
      rfl
    · rw [h, List.dropWhile_cons, hc]
      simp

theorem stripChars_idem (l : List Char) : stripChars (stripChars l) = stripChars l := by
  simp only [stripChars]
  rw [dropWhile_dropTrailWs_of_head _ (dropWhile_head_false l), dropTrailWs_idem]

theorem stripChars_map_toLower (l : List Char) :
    stripChars (l.map Char.toLower) = (stripChars l).map Char.toLower := by
  simp only [stripChars]
  rw [dropWhile_map_toLower, dropTrailWs_map_toLower]

theorem map_toLower_idem (l : List Char) :
    (l.map Char.toLower).map Char.toLower = l.map Char.toLower := by
  rw [List.map_map]
  exact List.map_congr_left (fun a _ => toLower_idem a)

theorem stripLower_fix (x : String) :
    pyLower (pyStrip (pyLower (pyStrip x))) = pyLower (pyStrip x) := by
  show String.mk ((stripChars ((stripChars x.data).map Char.toLower)).map Char.toLower) =
    String.mk ((stripChars x.data).map Char.toLower)
  rw [stripChars_map_toLower, stripChars_idem, map_toLower_idem]

theorem lookup_mem : ∀ (l : List (String × String)) (t v : String),
    l.lookup t = some v → (t, v) ∈ l := by
  intro l
  induction l with
  | nil =>
    intro t v h
    cases h
  | cons p rest ih =>
    intro t v h
    rw [List.lookup] at h
    by_cases hk : (t == p.1) = true
    · rw [hk] at h
      cases h
      have : t = p.1 := eq_of_beq hk
      rw [this]
      exact List.mem_cons_self _ _
    · rw [Bool.eq_false_iff.mpr hk] at h
      exact List.mem_cons_of_mem _ (ih t v h)

theorem synonym_values_fixed :
    ∀ p ∈ SKILL_SYNONYMS, canonicalize_skill p.2 = p.2 := by decide

theorem canon_canon (x : String) :
    canonicalize_skill (canonicalize_skill x) = canonicalize_skill x := by
  cases h : SKILL_SYNONYMS.lookup (pyLower (pyStrip x)) with
  | some v =>
    have hx : canonicalize_skill x = v := by
      simp [canonicalize_skill, h]
    rw [hx]
    have hmem := lookup_mem SKILL_SYNONYMS (pyLower (pyStrip x)) v h
    exact synonym_values_fixed (pyLower (pyStrip x), v) hmem
  | none =>
    have hx : canonicalize_skill x = pyLower (pyStrip x) := by
      simp [canonicalize_skill, h]
    rw [hx, canonicalize_skill]
    simp [stripLower_fix x, h]

/-! ## Claim C7 -/

/-- C7: skill canonicalization is idempotent: canonicalizing an already
canonicalized token returns it unchanged, both when the first pass went
through the synonym map (its values are themselves fixed points) and when it
only stripped and lowercased. -/
theorem canonicalize_skill_idempotent (x : String) :
    canonicalize_skill (canonicalize_skill x) = canonicalize_skill x :=
  canon_canon x


/-! ## Helper lemmas: the grammar-issue loop -/

theorem resume_quality_grammar (textstatB : Option (String → Except Unit (ℚ × ℚ × ℚ)))
    (grammarB : Option (String → Except Unit (List String))) (resume_text : String) :
    (resume_quality textstatB grammarB resume_text).grammar_issues =
      (match grammarB with
       | none => []
       | some f =>
         match f resume_text with
         | Except.ok ms => collectIssuesGo ms [] []
         | Except.error _ => []) := rfl

theorem collectIssuesGo_spec : ∀ (ms issues seen : List String),
    issues.length < 10 → issues.Nodup → (∀ x ∈ issues, x ∈ seen) →
    (collectIssuesGo ms issues seen).length ≤ 10 ∧ (collectIssuesGo ms issues seen).Nodup := by
  intro ms
  induction ms with
  | nil =>
    intro issues seen hlen hnd _
    rw [collectIssuesGo]
    constructor
    · rw [List.length_reverse]
      omega
    · rw [List.nodup_reverse]
      exact hnd
  | cons m rest ih =>
    intro issues seen hlen hnd hsub
    rw [collectIssuesGo]
    by_cases hskip : pyStrip m = "" ∨ seen.contains (pyStrip m) = true
    · rw [if_pos hskip, if_neg (by omega)]
      exact ih issues seen hlen hnd hsub
    · rw [if_neg hskip]
      push_neg at hskip
      have hnotseen : pyStrip m ∉ seen := by
        intro hmem
        exact absurd (by simpa using hmem) hskip.2
      have hnotiss : pyStrip m ∉ issues := fun hmem => hnotseen (hsub _ hmem)
      have hnd2 : (pyStrip m :: issues).Nodup := List.nodup_cons.mpr ⟨hnotiss, hnd⟩
      by_cases hbig : 10 ≤ (pyStrip m :: issues).length
      · rw [if_pos hbig]
        constructor
        · rw [List.length_reverse, List.length_cons]
          omega
        · rw [List.nodup_reverse]
          exact hnd2
      · rw [if_neg hbig]
        apply ih
        · rw [List.length_cons] at hbig ⊢
          omega
        · exact hnd2
        · intro x hx
          rcases List.mem_cons.mp hx with rfl | hx2
          · exact List.mem_cons_self _ _
          · exact List.mem_cons_of_mem _ (hsub _ hx2)

/-! ## Claim C8 -/

/-- C8: when the grammar backend is unavailable, or the call into it raises,
resume_quality reports no grammar issues (the failure is swallowed, never
propagated); when the backend call succeeds, the reported issues are at most
ten and pairwise distinct. -/
theorem grammar_issues_spec (textstatB : Option (String → Except Unit (ℚ × ℚ × ℚ)))
    (grammarB : Option (String → Except Unit (List String))) (resume_text : String) :
    (grammarB = none →
      (resume_quality textstatB grammarB resume_text).grammar_issues = []) ∧
    (∀ f, grammarB = some f → f resume_text = Except.error () →
      (resume_quality textstatB grammarB resume_text).grammar_issues = []) ∧
    (∀ f msgs, grammarB = some f → f resume_text = Except.ok msgs →
      (resume_quality textstatB grammarB resume_text).grammar_issues.length ≤ 10 ∧
      (resume_quality textstatB grammarB resume_text).grammar_issues.Nodup) := by
  refine ⟨?_, ?_, ?_⟩
  · intro h
    simp only [resume_quality_grammar, h]
  · intro f hf herr
    simp only [resume_quality_grammar, hf, herr]
  · intro f msgs hf hok
    simp only [resume_quality_grammar, hf, hok]
    exact collectIssuesGo_spec msgs [] [] (by norm_num) List.nodup_nil
      (by intro x hx; cases hx)

/-! ## Helper lemmas: extraction picks up canonicalized custom skills -/

theorem mem_extract_skills_custom (text : String) (custom_list : List String) (x : String)
    (hne : custom_list ≠ [])
    (hx : x ∈ dedupStr (custom_list.map canonicalize_skill))
    (htok : x ∈ (tokenize text).map canonicalize_skill ∨
      x ∈ ((tokenize text).zip (tokenize text).tail).map
        (fun p => canonicalize_skill (p.1 ++ " " ++ p.2))) :
    x ∈ extract_skills text custom_list := by
  have hemp : custom_list.isEmpty = false := by
    rcases custom_list with _ | ⟨c, cs⟩
    · exact absurd rfl hne
    · rfl
  simp only [extract_skills, hemp]
  rw [mem_sortStr, mem_dedupStr, List.mem_append, List.mem_append]
  right
  rw [if_neg (by simp [hemp]), List.mem_append]
  rcases htok with h1 | h2
  · left
    rw [List.mem_filter]
    exact ⟨h1, by simpa using hx⟩
  · right
    rw [List.mem_filter]
    exact ⟨h2, by simpa using hx⟩

/-! ## Claim C9 -/

/-- C9: compute_fit feeds the canonicalized required skills into skill
extraction as custom terms, so a required skill whose canonical form occurs in
the resume as a single token, or as the space-joined form of two adjacent
tokens, always ends up in matched_skills, whether or not the built-in lexicon
knows it. -/
theorem custom_skill_matched (sim : ℚ) (requirements : Requirements) (resume_text : String)
    (r : String) (hr : r ∈ requirements.skills)
    (hmatch : canonicalize_skill r ∈ tokenize resume_text ∨
      ∃ p ∈ (tokenize resume_text).zip (tokenize resume_text).tail,
        p.1 ++ " " ++ p.2 = canonicalize_skill r) :
    canonicalize_skill r ∈ (compute_fit sim requirements resume_text).2.matched_skills := by
  have hne : req_skills requirements ≠ [] := by
    rw [req_skills]
    intro hmap
    rw [List.map_eq_nil_iff] at hmap
    rw [hmap] at hr
    cases hr
  have hcrreq : canonicalize_skill r ∈ req_skills requirements := by
    rw [req_skills]
    exact List.mem_map_of_mem canonicalize_skill hr
  have hccs : canonicalize_skill r ∈ dedupStr ((req_skills requirements).map canonicalize_skill) := by
    rw [mem_dedupStr]
    have h2 := List.mem_map_of_mem canonicalize_skill hcrreq
    rwa [canon_canon r] at h2
  have hcand : canonicalize_skill r ∈ cand_skills requirements resume_text := by
    rw [cand_skills]
    apply mem_extract_skills_custom _ _ _ hne hccs
    rcases hmatch with htok | ⟨p, hp, hpe⟩
    · left
      have h2 := List.mem_map_of_mem canonicalize_skill htok
      rwa [canon_canon r] at h2
    · right
      rw [List.mem_map]
      refine ⟨p, hp, ?_⟩
      rw [hpe, canon_canon r]
  have hsetreq : canonicalize_skill r ∈ set_req requirements := by
    rw [set_req, mem_dedupStr]
    exact hcrreq
  have hsetcand : canonicalize_skill r ∈ set_cand requirements resume_text := by
    rw [set_cand, mem_dedupStr]
    exact hcand
  rw [compute_fit_matched, mem_sortStr, inter_skills, List.mem_filter]
  exact ⟨hsetreq, by simpa using hsetcand⟩

/-- Witness for C9: the custom skill frobnicate, which the built-in lexicon
does not contain, is matched when the resume mentions it. -/
theorem custom_skill_matched_witness :
    canonicalize_skill "frobnicate" ∈
      (compute_fit 0 ⟨["frobnicate"], none, []⟩ "I frobnicate daily").2.matched_skills :=
  custom_skill_matched 0 ⟨["frobnicate"], none, []⟩ "I frobnicate daily" "frobnicate"
    (by decide) (Or.inl (by decide))


/-! ## Claim C6 -/

/-- C6: the matched and missing skill lists of the breakdown partition the
canonicalized required skills: their union is exactly the set of canonical
required skills, they are disjoint, and both are sorted. -/
theorem matched_missing_partition (sim : ℚ) (requirements : Requirements) (resume_text : String) :
    ((compute_fit sim requirements resume_text).2.matched_skills.toFinset ∪
      (compute_fit sim requirements resume_text).2.missing_skills.toFinset =
      (requirements.skills.map canonicalize_skill).toFinset) ∧
    Disjoint (compute_fit sim requirements resume_text).2.matched_skills.toFinset
      (compute_fit sim requirements resume_text).2.missing_skills.toFinset ∧
    List.Sorted (· ≤ ·) (compute_fit sim requirements resume_text).2.matched_skills ∧
    List.Sorted (· ≤ ·) (compute_fit sim requirements resume_text).2.missing_skills := by
  refine ⟨?_, ?_, ?_, ?_⟩
  · ext x
    simp only [compute_fit_matched, compute_fit_missing, Finset.mem_union, List.mem_toFinset,
      mem_sortStr, inter_skills, diff_skills, List.mem_filter, set_req, mem_dedupStr, req_skills]
    constructor
    · rintro (⟨hx, _⟩ | ⟨hx, _⟩) <;> exact hx
    · intro hx
      by_cases hc : (set_cand requirements resume_text).contains x = true
      · exact Or.inl ⟨hx, hc⟩
      · refine Or.inr ⟨hx, ?_⟩
        rw [Bool.not_eq_true']
        exact Bool.eq_false_iff.mpr hc
  · rw [Finset.disjoint_left]
    intro x hx hy
    simp only [compute_fit_matched, compute_fit_missing, List.mem_toFinset, mem_sortStr,
      inter_skills, diff_skills, List.mem_filter] at hx hy
    rw [hx.2] at hy
    simp at hy
  · rw [compute_fit_matched]
    exact sorted_sortStr _
  · rw [compute_fit_missing]
    exact sorted_sortStr _


/-! ## Helper lemmas toward normalize idempotence: shape of the output -/

theorem cb_allowed : ∀ (l : List Char) (flag : Bool) (c : Char),
    c ∈ collapseRunsGo (fun x => !allowedChar x) ' ' flag l → allowedChar c = true := by
  intro l
  induction l with
  | nil =>
    intro flag c h
    cases flag <;> exact absurd h (List.not_mem_nil c)
  | cons a as ih =>
    intro flag c h
    have hmem : ∀ (h2 : c ∈ a :: collapseRunsGo (fun x => !allowedChar x) ' ' false as)
        (ha : allowedChar a = true), allowedChar c = true := by
      intro h2 ha
      rcases List.mem_cons.mp h2 with rfl | h3
      · exact ha
      · exact ih false c h3
    by_cases ha : (!allowedChar a) = true
    · cases flag with
      | true =>
        rw [collapseRunsGo, if_pos ha] at h
        exact ih true c h
      | false =>
        rw [collapseRunsGo, if_pos ha] at h
        rcases List.mem_cons.mp h with rfl | h3
        · decide
        · exact ih true c h3
    · have ha2 : allowedChar a = true := by
        rcases hb : allowedChar a with _ | _
        · rw [hb] at ha
          exact absurd rfl ha
        · rfl
      cases flag with
      | true =>
        rw [collapseRunsGo, if_neg ha] at h
        exact hmem h ha2
      | false =>
        rw [collapseRunsGo, if_neg ha] at h
        exact hmem h ha2

theorem cw_allowed : ∀ (l : List Char) (flag : Bool),
    (∀ c ∈ l, allowedChar c = true) →
    ∀ c ∈ collapseRunsGo pyWs ' ' flag l, allowedChar c = true := by
  intro l
  induction l with
  | nil =>
    intro flag _ c h
    cases flag <;> exact absurd h (List.not_mem_nil c)
  | cons a as ih =>
    intro flag hall c h
    have ha : allowedChar a = true := hall a (List.mem_cons_self a as)
    have has : ∀ x ∈ as, allowedChar x = true :=
      fun x hx => hall x (List.mem_cons_of_mem a hx)
    by_cases hw : pyWs a = true
    · cases flag with
      | true =>
        rw [collapseRunsGo, if_pos hw] at h
        exact ih true has c h
      | false =>
        rw [collapseRunsGo, if_pos hw] at h
        rcases List.mem_cons.mp h with rfl | h3
        · decide
        · exact ih true has c h3
    · cases flag with
      | true =>
        rw [collapseRunsGo, if_neg hw] at h
        rcases List.mem_cons.mp h with rfl | h3
        · exact ha
        · exact ih false has c h3
      | false =>
        rw [collapseRunsGo, if_neg hw] at h
        rcases List.mem_cons.mp h with rfl | h3
        · exact ha
        · exact ih false has c h3

theorem mem_dropTrailWs : ∀ (l : List Char) (c : Char), c ∈ dropTrailWs l → c ∈ l := by
  intro l
  induction l with
  | nil =>
    intro c h
    exact h
  | cons a as ih =>
    intro c h
    rw [dropTrailWs] at h
    by_cases hc : (pyWs a && (dropTrailWs as).isEmpty) = true
    · rw [if_pos hc] at h
      exact absurd h (List.not_mem_nil c)
    · rw [if_neg hc] at h
      rcases List.mem_cons.mp h with hca | h3
      · rw [hca]
        exact List.mem_cons_self a as
      · exact List.mem_cons_of_mem a (ih c h3)

theorem mem_stripChars (l : List Char) (c : Char) (h : c ∈ stripChars l) : c ∈ l := by
  rw [stripChars] at h
  exact (List.dropWhile_sublist pyWs).subset (mem_dropTrailWs _ c h)

theorem goTrue_head : ∀ (cs : List Char) (y : Char),
    (collapseRunsGo pyWs ' ' true cs).head? = some y → pyWs y = false := by
  intro cs
  induction cs with
  | nil =>
    intro y h
    cases h
  | cons d ds ih =>
    intro y h
    by_cases hd : pyWs d = true
    · rw [collapseRunsGo, if_pos hd] at h
      exact ih y h
    · rw [collapseRunsGo, if_neg hd, List.head?_cons] at h
      cases h
      exact Bool.eq_false_iff.mpr hd

theorem chain_collapseRunsGo : ∀ (l : List Char) (flag : Bool),
    (collapseRunsGo pyWs ' ' flag l).Chain'
      (fun a b => pyWs a = false ∨ pyWs b = false) := by
  intro l
  induction l with
  | nil =>
    intro flag
    cases flag <;> exact List.chain'_nil
  | cons c cs ih =>
    intro flag
    by_cases hc : pyWs c = true
    · cases flag with
      | true =>
        rw [collapseRunsGo, if_pos hc]
        exact ih true
      | false =>
        rw [collapseRunsGo, if_pos hc]
        rw [List.chain'_cons']
        refine ⟨?_, ih true⟩
        intro y hy
        exact Or.inr (goTrue_head cs y hy)
    · have hcf : pyWs c = false := Bool.eq_false_iff.mpr hc
      cases flag with
      | true =>
        rw [collapseRunsGo, if_neg hc, List.chain'_cons']
        exact ⟨fun y _ => Or.inl hcf, ih false⟩
      | false =>
        rw [collapseRunsGo, if_neg hc, List.chain'_cons']
        exact ⟨fun y _ => Or.inl hcf, ih false⟩

theorem dropTrailWs_head? : ∀ (l : List Char) (y : Char),
    (dropTrailWs l).head? = some y → l.head? = some y := by
  intro l y h
  cases l with
  | nil => exact h
  | cons c cs =>
    rcases dropTrailWs_head c cs with h2 | ⟨ds, h2⟩
    · rw [h2] at h
      cases h
    · rw [h2, List.head?_cons] at h
      cases h
      rfl

theorem chain_dropWhile {R : Char → Char → Prop} : ∀ (l : List Char),
    l.Chain' R → (l.dropWhile pyWs).Chain' R := by
  intro l
  induction l with
  | nil =>
    intro h
    exact h
  | cons c cs ih =>
    intro h
    rw [List.dropWhile_cons]
    by_cases hc : pyWs c = true
    · rw [if_pos hc]
      exact ih h.tail
    · rw [if_neg hc]
      exact h

theorem chain_dropTrailWs {R : Char → Char → Prop} : ∀ (l : List Char),
    l.Chain' R → (dropTrailWs l).Chain' R := by
  intro l
  induction l with
  | nil =>
    intro h
    exact h
  | cons c cs ih =>
    intro h
    rw [dropTrailWs]
    by_cases hc : (pyWs c && (dropTrailWs cs).isEmpty) = true
    · rw [if_pos hc]
      exact List.chain'_nil
    · rw [if_neg hc, List.chain'_cons']
      refine ⟨?_, ih h.tail⟩
      intro y hy
      exact (List.chain'_cons'.mp h).1 y (dropTrailWs_head? cs y hy)

theorem dropTrailWs_getLast : ∀ (l : List Char) (c : Char),
    (dropTrailWs l).getLast? = some c → pyWs c = false := by
  intro l
  induction l with
  | nil =>
    intro c h
    cases h
  | cons a as ih =>
    intro c h
    rw [dropTrailWs] at h
    by_cases hc : (pyWs a && (dropTrailWs as).isEmpty) = true
    · rw [if_pos hc] at h
      cases h
    · rw [if_neg hc] at h
      rcases hr : dropTrailWs as with _ | ⟨d, ds⟩
      · rw [hr] at h
        have hac : a = c := by
          have : (a :: ([] : List Char)).getLast? = some a := rfl
          rw [this] at h
          cases h
          rfl
        have hemp : (dropTrailWs as).isEmpty = true := by
          rw [hr]
          rfl
        rw [← hac]
        rcases hwa : pyWs a with _ | _
        · rfl
        · rw [hwa, hemp] at hc
          exact absurd rfl hc
      · rw [hr] at h
        rw [List.getLast?_cons_cons] at h
        apply ih
        rw [hr]
        exact h

theorem allowed_ws_eq_space (c : Char) (ha : allowedChar c = true) (hw : pyWs c = true) :
    c = ' ' := by
  have h32 : c.toNat = 32 := by
    rw [allowedChar] at ha
    rw [pyWs] at hw
    simp only [Bool.or_eq_true, Bool.and_eq_true, decide_eq_true_eq] at ha hw
    omega
  have h2 : c.toNat = (' ' : Char).toNat := h32
  exact Char.ext (UInt32.toNat.inj h2)


/-! ## Helper lemmas toward normalize idempotence: identity on normal text -/

theorem map_toLower_id_of_allowed (l : List Char) (h : ∀ c ∈ l, allowedChar c = true) :
    l.map Char.toLower = l := by
  have h2 : ∀ c ∈ l, Char.toLower c = c := by
    intro c hc
    apply toLower_eq_self
    have h3 := h c hc
    rw [allowedChar] at h3
    simp only [Bool.or_eq_true, Bool.and_eq_true, decide_eq_true_eq] at h3
    omega
  calc l.map Char.toLower = l.map id := List.map_congr_left h2
    _ = l := List.map_id l

theorem cb_id : ∀ (l : List Char) (flag : Bool), (∀ c ∈ l, allowedChar c = true) →
    collapseRunsGo (fun x => !allowedChar x) ' ' flag l = l := by
  intro l
  induction l with
  | nil =>
    intro flag _
    cases flag <;> rfl
  | cons c cs ih =>
    intro flag h
    have hc : allowedChar c = true := h c (List.mem_cons_self c cs)
    have hnc : ¬((!allowedChar c) = true) := by
      rw [hc]
      decide
    have hcs := fun d hd => h d (List.mem_cons_of_mem c hd)
    cases flag with
    | true => rw [collapseRunsGo, if_neg hnc, ih false hcs]
    | false => rw [collapseRunsGo, if_neg hnc, ih false hcs]

theorem cw_id : ∀ (l : List Char),
    (∀ c ∈ l, pyWs c = true → c = ' ') →
    l.Chain' (fun a b => pyWs a = false ∨ pyWs b = false) →
    collapseRunsGo pyWs ' ' false l = l := by
  intro l
  induction l with
  | nil =>
    intro _ _
    rfl
  | cons c cs ih =>
    intro hws hch
    by_cases hc : pyWs c = true
    · have hsp : c = ' ' := hws c (List.mem_cons_self c cs) hc
      rw [collapseRunsGo, if_pos hc, hsp]
      congr 1
      cases cs with
      | nil => rfl
      | cons d ds =>
        have hd : pyWs d = false := by
          have h2 := (List.chain'_cons'.mp hch).1 d rfl
          rcases h2 with h2 | h2
          · rw [h2] at hc
            exact absurd hc (by decide)
          · exact h2
        have hd2 : ¬(pyWs d = true) := by
          rw [hd]
          decide
        have hIH : collapseRunsGo pyWs ' ' false (d :: ds) = d :: ds :=
          ih (fun x hx hwx => hws x (List.mem_cons_of_mem c hx) hwx) (List.Chain'.tail hch)
        rw [collapseRunsGo, if_neg hd2] at hIH
        rw [collapseRunsGo, if_neg hd2]
        exact hIH
    · have hcs2 := fun x hx hwx => hws x (List.mem_cons_of_mem c hx) hwx
      rw [collapseRunsGo, if_neg hc, ih hcs2 (List.Chain'.tail hch)]

theorem dropWhile_eq_self_of_head (l : List Char)
    (h : ∀ c cs, l = c :: cs → pyWs c = false) : l.dropWhile pyWs = l := by
  cases l with
  | nil => rfl
  | cons c cs =>
    rw [List.dropWhile_cons, h c cs rfl]
    simp

theorem dropTrailWs_eq_self_of_last : ∀ (l : List Char),
    (∀ c, l.getLast? = some c → pyWs c = false) → dropTrailWs l = l := by
  intro l
  induction l with
  | nil =>
    intro _
    rfl
  | cons c cs ih =>
    intro h
    rw [dropTrailWs]
    cases cs with
    | nil =>
      have hc : pyWs c = false := h c rfl
      rw [hc]
      simp [dropTrailWs]
    | cons d ds =>
      have htail : dropTrailWs (d :: ds) = d :: ds := by
        apply ih
        intro x hx
        apply h
        rw [List.getLast?_cons_cons]
        exact hx
      rw [htail]
      simp

theorem normalizeL_allowed (l : List Char) :
    ∀ c ∈ normalizeL l, allowedChar c = true := by
  intro c hc
  rw [normalizeL] at hc
  have h1 := mem_stripChars _ c hc
  rw [collapseRuns] at h1
  refine cw_allowed _ false ?_ c h1
  intro x hx
  rw [collapseRuns] at hx
  exact cb_allowed _ false x hx

theorem normalizeL_chain (l : List Char) :
    (normalizeL l).Chain' (fun a b => pyWs a = false ∨ pyWs b = false) := by
  rw [normalizeL, stripChars]
  apply chain_dropTrailWs
  apply chain_dropWhile
  rw [collapseRuns]
  exact chain_collapseRunsGo _ false

theorem normalizeL_head (l : List Char) :
    ∀ c cs, normalizeL l = c :: cs → pyWs c = false := by
  intro c cs h
  have hh : (normalizeL l).head? = some c := by
    rw [h]
    rfl
  rw [normalizeL, stripChars] at hh
  have h2 := dropTrailWs_head? _ c hh
  rcases hd : (collapseRuns pyWs ' '
      (collapseRuns (fun x => !allowedChar x) ' ' (l.map Char.toLower))).dropWhile pyWs
    with _ | ⟨a, as⟩
  · rw [hd] at h2
    cases h2
  · rw [hd, List.head?_cons] at h2
    have hac := Option.some.inj h2
    rw [← hac]
    exact dropWhile_head_false _ a as hd

theorem normalizeL_last (l : List Char) :
    ∀ c, (normalizeL l).getLast? = some c → pyWs c = false := by
  intro c h
  rw [normalizeL, stripChars] at h
  exact dropTrailWs_getLast _ c h

theorem normalizeL_idem (l : List Char) : normalizeL (normalizeL l) = normalizeL l := by
  have hall := normalizeL_allowed l
  have hws : ∀ c ∈ normalizeL l, pyWs c = true → c = ' ' :=
    fun c hc hw => allowed_ws_eq_space c (hall c hc) hw
  conv_lhs => rw [normalizeL]
  rw [map_toLower_id_of_allowed _ hall]
  simp only [collapseRuns]
  rw [cb_id _ false hall, cw_id _ hws (normalizeL_chain l), stripChars,
    dropWhile_eq_self_of_head _ (normalizeL_head l),
    dropTrailWs_eq_self_of_last _ (normalizeL_last l)]

/-! ## Claim C10 -/

/-- C10: text normalization is idempotent: its output is already lowercase,
restricted to the allowed characters, single-spaced and trimmed, so a second
pass changes nothing. -/
theorem normalize_idempotent (s : String) : normalize (normalize s) = normalize s :=
  congrArg String.mk (normalizeL_idem s.data)

end AiComponent